import Mathlib

/-
Verification of the netgraph layout core against its specification.

The Python sources under src/netgraph are shallowly embedded below.
Real-valued numpy arithmetic is embedded over ℚ wherever the source only
uses field operations; quantities whose computation inherently involves a
square root (vector norms) are embedded over ℝ, or — where a claim holds
for every possible value of such a quantity — abstracted as parameters.
Each definition carries a reference to the source function it embeds.
-/

set_option maxRecDepth 4096

/-- Points and displacement vectors in the plane, embedded over ℚ. -/
abbrev Vec : Type := ℚ × ℚ

/- ----------------------------------------------------------------
   DEFINITIONS
   ---------------------------------------------------------------- -/

/- ================================================================
   Circular layout crossing test
   src/netgraph/_node_layout.py, `_is_cross` (lines 692-699)
   ================================================================ -/

/-- Embeds `np.where(np.in1d(node_order, edge, assume_unique=True))`:
the ascending list of positions in `order` holding an endpoint of `e`. -/
def inOrderIndices (order : List ℕ) (e : ℕ × ℕ) : List ℕ :=
  (List.range order.length).filter
    (fun i => order.getD i 0 = e.1 ∨ order.getD i 0 = e.2)

/-- Embeds `_is_cross` (_node_layout.py lines 692-699), including the
source's second comparison branch `(s2 < s1 < t2 < t2)` verbatim.
When either edge does not yield exactly two indices the Python unpacking
would raise; that case is mapped to `false` and is never exercised by the
claims, which supply four distinct endpoints of the order. -/
def isCross (order : List ℕ) (edge1 edge2 : ℕ × ℕ) : Bool :=
  match inOrderIndices order edge1, inOrderIndices order edge2 with
  | [s1, t1], [s2, t2] =>
      decide ((s1 < s2 ∧ s2 < t1 ∧ t1 < t2) ∨ (s2 < s1 ∧ s1 < t2 ∧ t2 < t2))
  | _, _ => false

/-- The spec's crossing criterion: the two index pairs strictly interleave
walking around the circle (each pair already sorted ascending). -/
def strictlyInterleave (s1 t1 s2 t2 : ℕ) : Prop :=
  (s1 < s2 ∧ s2 < t1 ∧ t1 < t2) ∨ (s2 < s1 ∧ s1 < t2 ∧ t2 < t1)

instance (s1 t1 s2 t2 : ℕ) : Decidable (strictlyInterleave s1 t1 s2 t2) := by
  unfold strictlyInterleave; infer_instance

/- ================================================================
   Bounding-box packer rescaling
   src/netgraph/_node_layout.py, `_rescale_bboxes_to_canvas`
   (lines 175-194)
   ================================================================ -/

/-- A bounding box (x, y, width, height), as used by the packer. -/
structure Bbox where
  x : ℚ
  y : ℚ
  w : ℚ
  h : ℚ
deriving DecidableEq, Repr

/-- Componentwise minimum of two plane vectors. -/
def vmin (a b : Vec) : Vec := (min a.1 b.1, min a.2 b.2)

/-- Componentwise maximum of two plane vectors. -/
def vmax (a b : Vec) : Vec := (max a.1 b.1, max a.2 b.2)

/-- Componentwise minimum of a point list (embeds `np.min(..., axis=0)`;
the numpy call errors on an empty array, the `[]` case is never used). -/
def colMin2 (ps : List Vec) : Vec :=
  match ps with
  | [] => (0, 0)
  | p :: rest => rest.foldl vmin p

/-- Componentwise maximum of a point list (embeds `np.max(..., axis=0)`). -/
def colMax2 (ps : List Vec) : Vec :=
  match ps with
  | [] => (0, 0)
  | p :: rest => rest.foldl vmax p

/-- Embeds `_rescale_bboxes_to_canvas` (_node_layout.py lines 175-194).
Note that the source binds an `origin` parameter and never uses it in the
body; the embedding reproduces that exactly. -/
def rescaleBboxesToCanvas (bboxes : List Bbox) (origin scale : Vec) : List Bbox :=
  let lowerLeft := bboxes.map (fun b => ((b.x, b.y) : Vec))
  let upperRight := bboxes.map (fun b => ((b.x + b.w, b.y + b.h) : Vec))
  let minimum := colMin2 lowerLeft
  let maximum := colMax2 upperRight
  let totalWidth := maximum.1 - minimum.1
  let totalHeight := maximum.2 - minimum.2
  let shifted := lowerLeft.map (fun p => ((p.1 - minimum.1, p.2 - minimum.2) : Vec))
  let scaleX := scale.1 / totalWidth
  let scaleY := scale.2 / totalHeight
  let corners := shifted.map (fun p => ((p.1 * scaleX, p.2 * scaleY) : Vec))
  let dims := bboxes.map (fun b => ((b.w * scaleX, b.h * scaleY) : Vec))
  (corners.zip dims).map (fun cd => Bbox.mk cd.1.1 cd.1.2 cd.2.1 cd.2.2)

/-- Lower-left corner of the union of a list of bounding boxes. -/
def unionLowerLeft (bboxes : List Bbox) : Vec :=
  colMin2 (bboxes.map (fun b => ((b.x, b.y) : Vec)))

/-- Width and height of the union of a list of bounding boxes. -/
def unionDims (bboxes : List Bbox) : Vec :=
  let m := colMin2 (bboxes.map (fun b => ((b.x, b.y) : Vec)))
  let M := colMax2 (bboxes.map (fun b => ((b.x + b.w, b.y + b.h) : Vec)))
  (M.1 - m.1, M.2 - m.2)

/- ================================================================
   FDEB position compatibility
   src/netgraph/_edge_layout.py, `Segment` (lines 510-525) and
   `_get_position_compatibility` (lines 561-565)
   ================================================================ -/

/-- Euclidean norm of a plane vector, embedding `np.linalg.norm`. -/
noncomputable def vecNormR (v : ℝ × ℝ) : ℝ :=
  Real.sqrt (v.1 ^ 2 + v.2 ^ 2)

/-- Embeds `Segment.vector = p1 - p0`. -/
noncomputable def segVector (p0 p1 : ℝ × ℝ) : ℝ × ℝ :=
  (p1.1 - p0.1, p1.2 - p0.2)

/-- Embeds `Segment.length = np.linalg.norm(vector)`. -/
noncomputable def segLength (p0 p1 : ℝ × ℝ) : ℝ :=
  vecNormR (segVector p0 p1)

/-- Embeds `Segment.midpoint = self.p0 * 0.5 * self.vector` — numpy `*`
is the elementwise product, so this is p0 ⊙ (0.5 · (p1 - p0)). -/
noncomputable def segMidpoint (p0 p1 : ℝ × ℝ) : ℝ × ℝ :=
  (p0.1 * (0.5 * (p1.1 - p0.1)), p0.2 * (0.5 * (p1.2 - p0.2)))

/-- Embeds `_get_position_compatibility(P, Q)` (lines 561-565) for the
segments P = (p0, p1) and Q = (q0, q1). -/
noncomputable def positionCompatibility (p0 p1 q0 q1 : ℝ × ℝ) : ℝ :=
  let avg := 0.5 * (segLength p0 p1 + segLength q0 q1)
  let mP := segMidpoint p0 p1
  let mQ := segMidpoint q0 q1
  let distanceBetweenMidpoints := vecNormR (mQ.1 - mP.1, mQ.2 - mP.2)
  avg / (avg + distanceBetweenMidpoints)

/-- Modelled from the spec: the midpoint of a segment, "the point halfway
between that segment's two endpoints ((p0+p1)/2)". -/
noncomputable def specSegMidpoint (p0 p1 : ℝ × ℝ) : ℝ × ℝ :=
  ((p0.1 + p1.1) / 2, (p0.2 + p1.2) / 2)

/-- Modelled from the spec: the position-compatibility factor avg/(avg+d)
with d the distance between true segment midpoints. -/
noncomputable def specPositionCompatibility (p0 p1 q0 q1 : ℝ × ℝ) : ℝ :=
  let avg := 0.5 * (segLength p0 p1 + segLength q0 q1)
  let mP := specSegMidpoint p0 p1
  let mQ := specSegMidpoint q0 q1
  avg / (avg + vecNormR (mQ.1 - mP.1, mQ.2 - mP.2))

/- ================================================================
   Force-directed node placement engine
   src/netgraph/_node_layout.py, `get_fruchterman_reingold_layout`
   (lines 198-404), `_is_within_bbox` (407-410),
   `_rescale_to_frame` (491-497)
   ================================================================ -/

/-- Modelled from the spec: `_get_unique_nodes` lives in the repository's
`_utils` module, which is not under src/. Per §3, every node in the input
edge set appears exactly once; nodes are collected in order of first
appearance. -/
def uniqueNodes (edges : List (ℕ × ℕ)) : List ℕ :=
  edges.foldl
    (fun acc e =>
      let acc1 := if acc.contains e.1 then acc else acc ++ [e.1]
      if acc1.contains e.2 then acc1 else acc1 ++ [e.2])
    []

/-- Embeds numpy boolean-mask selection `xs[mask]`. -/
def maskSelect {γ : Type _} (mask : List Bool) (xs : List γ) : List γ :=
  (mask.zip xs).filterMap (fun bx => if bx.1 then some bx.2 else none)

/-- Embeds numpy boolean-mask assignment `xs[mask] = ys`: entries of `xs`
at `true` positions of the mask are replaced by consecutive entries of
`ys`; entries at `false` positions are untouched. (numpy requires
`ys` to have exactly as many entries as the mask has `true`s; the
fall-through cases keep the remaining entries and are never exercised.) -/
def maskScatter {γ : Type _} : List Bool → List γ → List γ → List γ
  | true :: bs, _ :: xs, y :: ys => y :: maskScatter bs xs ys
  | true :: bs, x :: xs, [] => x :: maskScatter bs xs []
  | false :: bs, x :: xs, ys => x :: maskScatter bs xs ys
  | _, xs, _ => xs

/-- Embeds `_is_within_bbox` (_node_layout.py lines 407-410) for a single
point: `origin ≤ p` and `p ≤ origin + scale`, componentwise. -/
def isWithinBbox (origin scale : Vec) (p : Vec) : Bool :=
  decide (origin.1 ≤ p.1 ∧ p.1 ≤ origin.1 + scale.1 ∧
          origin.2 ≤ p.2 ∧ p.2 ≤ origin.2 + scale.2)

/-- The positions shifted by their componentwise minimum, the first two
statements of `_rescale_to_frame` (`node_positions -= np.min(...)`). -/
def frShifted (ps : List Vec) : List Vec :=
  let minv := colMin2 ps
  ps.map (fun p => (p.1 - minv.1, p.2 - minv.2))

/-- Embeds `_rescale_to_frame` (_node_layout.py lines 491-497): shift by
the columnwise minimum, divide by the columnwise maximum of the shifted
positions, multiply by `scale` and add `origin`. -/
def rescaleToFrame (ps : List Vec) (origin scale : Vec) : List Vec :=
  let shifted := frShifted ps
  let maxv := colMax2 shifted
  shifted.map (fun p => (p.1 / maxv.1 * scale.1 + origin.1,
                         p.2 / maxv.2 * scale.2 + origin.2))

/-- Embeds the main loop of `get_fruchterman_reingold_layout` (lines
387-392): per iteration, candidate positions are computed for the mobile
nodes and a mobile node moves only when its candidate lies inside the
canvas. The numeric force computation `_fruchterman_reingold` (whose
vector norms involve square roots) is abstracted as the parameter `step`,
taking the iteration index and the current mobile and fixed positions;
the claims settled against this embedding hold for every `step`. -/
def frMainLoop (step : ℕ → List Vec → List Vec → List Vec)
    (origin scale : Vec) (fixedPos : List Vec) (iters : ℕ)
    (mobile : List Vec) : List Vec :=
  (List.range iters).foldl
    (fun mob t =>
      let cand := step t mob fixedPos
      (cand.zip mob).map (fun cm => if isWithinBbox origin scale cm.1 then cm.1 else cm.2))
    mobile

/-- Embeds `is_mobile` (line 355): a node is mobile iff it is not listed
in `fixed_nodes`. -/
def isMobileMask (nodes fixedNodes : List ℕ) : List Bool :=
  nodes.map (fun n => ! fixedNodes.contains n)

/-- Embeds lines 354-397 of `get_fruchterman_reingold_layout`: partition
positions into mobile and fixed by the mask, run the main loop on the
mobile block, and write the final mobile positions back into the full
position array (`node_positions_as_array[is_mobile] = mobile_positions`). -/
def frScattered (step : ℕ → List Vec → List Vec → List Vec)
    (nodes fixedNodes : List ℕ) (positions : List Vec)
    (origin scale : Vec) (iters : ℕ) : List Vec :=
  let mask := isMobileMask nodes fixedNodes
  let mobile := maskSelect mask positions
  let fixedPos := maskSelect (mask.map (fun b => !b)) positions
  maskScatter mask positions (frMainLoop step origin scale fixedPos iters mobile)

/-- Embeds the output formatting of `get_fruchterman_reingold_layout`
(lines 394-404): rescale to the frame only when every node is mobile
(`if np.all(is_mobile)`), then zip node keys with positions. -/
def frLayout (step : ℕ → List Vec → List Vec → List Vec)
    (nodes fixedNodes : List ℕ) (positions : List Vec)
    (origin scale : Vec) (iters : ℕ) : List (ℕ × Vec) :=
  let mask := isMobileMask nodes fixedNodes
  let arr := frScattered step nodes fixedNodes positions origin scale iters
  nodes.zip (if mask.all (fun b => b) then rescaleToFrame arr origin scale else arr)

/- ================================================================
   Multi-component decorator and packer pipeline
   src/netgraph/_node_layout.py, `_handle_multiple_components`
   (lines 35-64), `get_layout_for_multiple_components` (67-109),
   `_get_component_bboxes` (112-166), `_get_bbox_dimensions` (169-172)
   ================================================================ -/

/-- Modelled from the spec: Python `set(...)` deduplication used at line
54 (`set(nodes) - set(_get_unique_nodes(edges))`), keeping first
occurrences. -/
def dedupNodes (ns : List ℕ) : List ℕ :=
  ns.foldl (fun acc n => if acc.contains n then acc else acc ++ [n]) []

/-- One merge pass: adds to `comp` every node joined by an edge to a node
already in `comp`. -/
def extendComp (edges : List (ℕ × ℕ)) (comp : List ℕ) : List ℕ :=
  edges.foldl
    (fun c e =>
      if c.contains e.1 ∧ ¬ c.contains e.2 then c ++ [e.2]
      else if c.contains e.2 ∧ ¬ c.contains e.1 then c ++ [e.1]
      else c)
    comp

/-- Nodes reachable from `start` (iterating the merge pass as many times
as there are nodes suffices to saturate). -/
def reachFrom (edges : List (ℕ × ℕ)) (start : ℕ) : List ℕ :=
  (List.range (uniqueNodes edges).length).foldl
    (fun c _ => extendComp edges c) [start]

/-- Modelled from the spec: `_get_connected_components` lives in the
repository's `_utils` module, which is not under src/. Per §3 a component
is "a maximal set of nodes connected under the undirected interpretation
of edges"; an empty edge list yields no components. -/
def connectedComponents (edges : List (ℕ × ℕ)) : List (List ℕ) :=
  (uniqueNodes edges).foldl
    (fun comps v =>
      if comps.any (fun c => c.contains v) then comps
      else comps ++ [reachFrom edges v])
    []

/-- Modelled from the spec: `_get_subgraph` (in the missing `_utils`)
restricts an edge list to a component, as the inline variant at
_edge_layout.py line 44 does: both endpoints must lie in the component. -/
def subgraphEdges (edges : List (ℕ × ℕ)) (comp : List ℕ) : List (ℕ × ℕ) :=
  edges.filter (fun e => comp.contains e.1 ∧ comp.contains e.2)

/-- Embeds Python `int(...)` truncation toward zero on a rational. -/
def intTrunc (q : ℚ) : ℤ := Int.tdiv q.num (q.den : ℤ)

/-- Embeds `_get_component_bboxes` (_node_layout.py lines 112-166) with
its default `power=0.8` and `pad_by=0.05`. Two external quantities are
parameters: `bboxDim n` stands for the irrational `n ** 0.8` (the claims
below evaluate it only at n = 1, where `n ** 0.8 = 1` exactly), and
`pack` stands for the third-party `rpack.pack` rectangle-packing
heuristic, which returns one lower-left integer corner per box. -/
def getComponentBboxes (bboxDim : ℕ → ℚ) (pack : List (ℤ × ℤ) → List (ℤ × ℤ))
    (components : List (List ℕ)) (origin scale : Vec) : List Bbox :=
  let relativeDimensions := components.map (fun c => ((bboxDim c.length, bboxDim c.length) : Vec))
  let maximumDimensions := colMax2 relativeDimensions
  let padX := (5 : ℚ) / 100 * maximumDimensions.1
  let padY := (5 : ℚ) / 100 * maximumDimensions.2
  let paddedDimensions := relativeDimensions.map (fun wh => ((wh.1 + padX, wh.2 + padY) : Vec))
  let scalar : ℚ := 20
  let integerDimensions := paddedDimensions.map
    (fun wh => (intTrunc (scalar * wh.1), intTrunc (scalar * wh.2)))
  let origins := pack integerDimensions
  let bboxes := (origins.zip relativeDimensions).map
    (fun owh => Bbox.mk (owh.1.1 : ℚ) (owh.1.2 : ℚ) (scalar * owh.2.1) (scalar * owh.2.2))
  rescaleBboxesToCanvas bboxes origin scale

/-- Embeds the loop body of `get_layout_for_multiple_components` (lines
99-107): a component with more than one node is laid out by the inner
algorithm on its bounding box (any exception propagates); a single-node
component is placed at the centre of its bounding box. -/
def layoutComponentsLoop
    (inner : List (ℕ × ℕ) → Vec → Vec → Except String (List (ℕ × Vec)))
    (edges : List (ℕ × ℕ)) :
    List (List ℕ × Bbox) → Except String (List (ℕ × Vec))
  | [] => Except.ok []
  | (comp, bbox) :: rest =>
    if comp.length > 1 then
      match inner (subgraphEdges edges comp) (bbox.x, bbox.y) (bbox.w, bbox.h) with
      | Except.error e => Except.error e
      | Except.ok sub =>
        match layoutComponentsLoop inner edges rest with
        | Except.error e => Except.error e
        | Except.ok more => Except.ok (sub ++ more)
    else
      match comp with
      | [n] =>
        match layoutComponentsLoop inner edges rest with
        | Except.error e => Except.error e
        | Except.ok more =>
          Except.ok ((n, (bbox.x + (1:ℚ)/2 * bbox.w, bbox.y + (1:ℚ)/2 * bbox.h)) :: more)
      | _ => layoutComponentsLoop inner edges rest

/-- Embeds `get_layout_for_multiple_components` (lines 67-109). -/
def layoutForMultipleComponents
    (inner : List (ℕ × ℕ) → Vec → Vec → Except String (List (ℕ × Vec)))
    (bboxDim : ℕ → ℚ) (pack : List (ℤ × ℤ) → List (ℤ × ℤ))
    (edges : List (ℕ × ℕ)) (components : List (List ℕ))
    (origin scale : Vec) : Except String (List (ℕ × Vec)) :=
  let bboxes := getComponentBboxes bboxDim pack components origin scale
  layoutComponentsLoop inner edges (components.zip bboxes)

/-- Embeds the `_handle_multiple_components` decorator (lines 35-64):
compute components, append one singleton component per supplied node not
appearing in the edge list (Python `if nodes:` is false for `None` and
for an empty list), and dispatch to the multi-component path only when
more than one component exists. -/
def handleMultipleComponentsFR
    (inner : List (ℕ × ℕ) → Vec → Vec → Except String (List (ℕ × Vec)))
    (bboxDim : ℕ → ℚ) (pack : List (ℤ × ℤ) → List (ℤ × ℤ))
    (edges : List (ℕ × ℕ)) (nodes : Option (List ℕ))
    (origin scale : Vec) : Except String (List (ℕ × Vec)) :=
  let components := connectedComponents edges
  let components :=
    match nodes with
    | none => components
    | some ns =>
      let unconnected :=
        (dedupNodes ns).filter (fun n => ¬ (uniqueNodes edges).contains n)
      components ++ unconnected.map (fun n => [n])
  if components.length > 1 then
    layoutForMultipleComponents inner bboxDim pack edges components origin scale
  else
    inner edges origin scale

/-- The message of the assertion at _node_layout.py line 260. -/
def emptyEdgeMsg : String := "The list of edges has to be non-empty."

/-- Embeds the entry of the undecorated `get_fruchterman_reingold_layout`
(line 260): `assert len(edges) > 0`. The remainder of the engine body
(lines 262-404, embedded separately as `frLayout`) is abstracted as
`innerBody`, which is reached only when the edge list is non-empty. -/
def frInnerAssert (innerBody : List (ℕ × ℕ) → Vec → Vec → List (ℕ × Vec))
    (edges : List (ℕ × ℕ)) (origin scale : Vec) :
    Except String (List (ℕ × Vec)) :=
  if edges.length > 0 then Except.ok (innerBody edges origin scale)
  else Except.error emptyEdgeMsg

/-- The decorated engine `get_fruchterman_reingold_layout` as callers see
it: the decorator wrapped around the asserting body. -/
def getFRLayoutDecorated (innerBody : List (ℕ × ℕ) → Vec → Vec → List (ℕ × Vec))
    (bboxDim : ℕ → ℚ) (pack : List (ℤ × ℤ) → List (ℤ × ℤ))
    (edges : List (ℕ × ℕ)) (nodes : Option (List ℕ))
    (origin scale : Vec) : Except String (List (ℕ × Vec)) :=
  handleMultipleComponentsFR (frInnerAssert innerBody) bboxDim pack edges nodes origin scale

/-- Embeds the loop body of `get_layout_for_multiple_components` (lines
99-107) with the `node_positions` and `fixed_nodes` keyword arguments
made explicit: they travel through `*args, **kwargs` unchanged into the
inner algorithm for components with more than one node (line 103), while
the singleton branch (line 107) ignores them and places the node at the
centre of its bounding box. -/
def layoutComponentsLoopKw
    (inner : List (ℕ × ℕ) → Vec → Vec → List (ℕ × Vec) → List ℕ →
      Except String (List (ℕ × Vec)))
    (edges : List (ℕ × ℕ)) (nodePositions : List (ℕ × Vec))
    (fixedNodes : List ℕ) :
    List (List ℕ × Bbox) → Except String (List (ℕ × Vec))
  | [] => Except.ok []
  | (comp, bbox) :: rest =>
    if comp.length > 1 then
      match inner (subgraphEdges edges comp) (bbox.x, bbox.y) (bbox.w, bbox.h)
          nodePositions fixedNodes with
      | Except.error e => Except.error e
      | Except.ok sub =>
        match layoutComponentsLoopKw inner edges nodePositions fixedNodes rest with
        | Except.error e => Except.error e
        | Except.ok more => Except.ok (sub ++ more)
    else
      match comp with
      | [n] =>
        match layoutComponentsLoopKw inner edges nodePositions fixedNodes rest with
        | Except.error e => Except.error e
        | Except.ok more =>
          Except.ok ((n, (bbox.x + (1:ℚ)/2 * bbox.w, bbox.y + (1:ℚ)/2 * bbox.h)) :: more)
      | _ => layoutComponentsLoopKw inner edges nodePositions fixedNodes rest

/-- Embeds the `_handle_multiple_components` decorator (lines 35-64)
with the `node_positions` and `fixed_nodes` keyword arguments made
explicit: the wrapper itself never reads them; it forwards them to the
inner algorithm (single-component delegation, line 62) or to the
multi-component loop above (line 60). -/
def handleMultipleComponentsKw
    (inner : List (ℕ × ℕ) → Vec → Vec → List (ℕ × Vec) → List ℕ →
      Except String (List (ℕ × Vec)))
    (bboxDim : ℕ → ℚ) (pack : List (ℤ × ℤ) → List (ℤ × ℤ))
    (edges : List (ℕ × ℕ)) (nodes : Option (List ℕ)) (origin scale : Vec)
    (nodePositions : List (ℕ × Vec)) (fixedNodes : List ℕ) :
    Except String (List (ℕ × Vec)) :=
  let components := connectedComponents edges
  let components :=
    match nodes with
    | none => components
    | some ns =>
      let unconnected :=
        (dedupNodes ns).filter (fun n => ¬ (uniqueNodes edges).contains n)
      components ++ unconnected.map (fun n => [n])
  if components.length > 1 then
    layoutComponentsLoopKw inner edges nodePositions fixedNodes
      (components.zip (getComponentBboxes bboxDim pack components origin scale))
  else
    inner edges origin scale nodePositions fixedNodes

/-- A concrete left-to-right shelf packing, standing in for the external
`rpack.pack` in closed evaluations (boxes are placed side by side at
y = 0, which is a valid non-overlapping packing). -/
def shelfPack (dims : List (ℤ × ℤ)) : List (ℤ × ℤ) :=
  (dims.foldl (fun acc wh => (acc.1 ++ [(acc.2, (0 : ℤ))], acc.2 + wh.1))
    (([] : List (ℤ × ℤ)), (0 : ℤ))).1

/- ================================================================
   Seeded determinism
   src/netgraph/_node_layout.py, `get_random_layout` (lines 500-503)
   and the random initialization of `get_fruchterman_reingold_layout`
   (lines 296-298)
   ================================================================ -/

/-- Modelled from the spec: the numpy global RNG, fixed by a seed, is
embedded as an explicitly threaded pseudo-random state (a 64-bit linear
congruential generator); each draw consumes the state. The layout claims
hold for the stream values themselves, only reproducibility matters. -/
def lcgNext (s : ℕ) : ℕ :=
  (6364136223846793005 * s + 1442695040888963407) % (2 ^ 64)

/-- One uniform draw in [0, 1) together with the advanced RNG state. -/
def randUnit (s : ℕ) : ℚ × ℕ :=
  let s1 := lcgNext s
  ((((s1 / 2 ^ 32) % 2 ^ 32 : ℕ) : ℚ) / ((2 ^ 32 : ℕ) : ℚ), s1)

/-- Embeds `np.random.rand(2) * scale + origin`. -/
def randVec (s : ℕ) (origin scale : Vec) : Vec × ℕ :=
  let xs := randUnit s
  let ys := randUnit xs.2
  ((xs.1 * scale.1 + origin.1, ys.1 * scale.2 + origin.2), ys.2)

/-- Embeds `get_random_layout` (lines 500-503): one random position per
unique node, drawn from the seeded stream. -/
def getRandomLayout (seed : ℕ) (edges : List (ℕ × ℕ)) (origin scale : Vec) :
    List (ℕ × Vec) × ℕ :=
  (uniqueNodes edges).foldl
    (fun acc n =>
      let vs := randVec acc.2 origin scale
      (acc.1 ++ [(n, vs.1)], vs.2))
    ([], seed)

/-- Random initial positions for `k` nodes (embeds line 297,
`np.random.rand(len(connected_nodes), dimensionality) * scale + origin`). -/
def randVecs (seed : ℕ) (k : ℕ) (origin scale : Vec) : List Vec :=
  ((List.range k).foldl
    (fun acc _ =>
      let vs := randVec acc.2 origin scale
      (acc.1 ++ [vs.1], vs.2))
    (([] : List Vec), seed)).1

/-- The force-directed engine started from seeded random initial
positions and no fixed nodes. -/
def frLayoutSeeded (step : ℕ → List Vec → List Vec → List Vec) (seed : ℕ)
    (edges : List (ℕ × ℕ)) (origin scale : Vec) (iters : ℕ) :
    List (ℕ × Vec) :=
  let nodes := uniqueNodes edges
  frLayout step nodes [] (randVecs seed nodes.length origin scale) origin scale iters

/- ================================================================
   Curved-edge router default spring constant
   src/netgraph/_edge_layout.py, `get_curved_edge_paths` (lines 144-225)
   ================================================================ -/

/-- The names visible from line 205 of _edge_layout.py
(`total_nodes = len(nodes)`): the parameters of `get_curved_edge_paths`
(no local assignment precedes line 205), the module-level bindings of
_edge_layout.py (imports and top-level definitions), and no relevant
builtin. `nodes` is bound only inside other function bodies
(e.g. line 339), which do not form enclosing scopes of this one. -/
def curvedEdgeScopeNames : List String :=
  ["edges", "node_positions", "selfloop_radius", "origin", "scale", "k",
   "initial_temperature", "total_iterations", "node_size",
   "itertools", "warnings", "np", "wraps", "UnivariateSpline", "uuid4",
   "_bspline", "_get_n_points_on_a_circle", "_get_angle",
   "_edge_list_to_adjacency_list", "_get_connected_components",
   "get_fruchterman_reingold_layout", "_clip_to_frame", "profile",
   "_handle_multiple_components", "_get_layout_for_multiple_components",
   "get_straight_edge_paths", "_shift_edge", "get_selfloop_paths",
   "_get_selfloop_path", "get_curved_edge_paths",
   "_initialize_control_points", "_expand_edges",
   "_initialize_control_point_positions", "_initialize_nonloops",
   "_init_nonloop", "_initialize_selfloops", "_init_selfloop",
   "_optimize_control_point_positions", "_get_path_through_control_points",
   "_fit_splines_through_edge_paths", "get_bundled_edge_paths", "_get_k",
   "_get_edge_compatibility", "Segment", "_get_angle_compatibility",
   "_get_scale_compatibility", "_get_position_compatibility",
   "_get_visibility_compatibility", "_get_visibility",
   "_initialize_bundled_control_points", "_expand_control_points",
   "_get_Fs", "_get_Fe", "_update_control_point_positions",
   "_smooth_edges", "_smooth_path", "_straighten_edges", "_straighten_path"]

/-- Embeds the `if k is None` initialization at lines 204-208: with `k`
supplied it is used as given; with `k = None` the body evaluates
`len(nodes)`, and resolving the name `nodes` fails in every scope,
raising NameError. (The `.ok 0` branch is unreachable: it would stand
for `0.1 * sqrt(area / total_nodes)`.) -/
def curvedDefaultK (k : Option ℚ) : Except String ℚ :=
  match k with
  | some kv => Except.ok kv
  | none =>
    if curvedEdgeScopeNames.contains "nodes" then Except.ok 0
    else Except.error "NameError: name nodes is not defined"

/-- Embeds the body of `get_curved_edge_paths`: the default-k
initialization runs first; only then does the control-point pipeline
(lines 210-225, abstracted as `paths`) produce the edge paths. -/
def getCurvedEdgePaths (paths : ℚ → List ((ℕ × ℕ) × List Vec))
    (k : Option ℚ) : Except String (List ((ℕ × ℕ) × List Vec)) :=
  match curvedDefaultK k with
  | Except.error e => Except.error e
  | Except.ok kv => Except.ok (paths kv)

/- ================================================================
   FDEB bidirectional-pair handling
   src/netgraph/_edge_layout.py, `get_bundled_edge_paths`
   (lines 430-470)
   ================================================================ -/

/-- Embeds the self-loop filter at lines 431-433 (the conditional
`if np.any(...)` around the filter leaves a loop-free list unchanged,
so unconditional filtering is equal). -/
def fdebSimEdges (edges : List (ℕ × ℕ)) : List (ℕ × ℕ) :=
  edges.filter (fun e => decide (e.1 ≠ e.2))

/-- One step of the unidirectional-edge loop (lines 437-439): add the
edge unless its reverse is already collected; Python's `set.add` ignores
an edge already present. -/
def keptStep (acc : List (ℕ × ℕ)) (e : ℕ × ℕ) : List (ℕ × ℕ) :=
  if (e.2, e.1) ∈ acc then acc
  else if e ∈ acc then acc else acc ++ [e]

/-- Embeds `unidirectional_edges` (lines 436-441). -/
def keptEdges (edges : List (ℕ × ℕ)) : List (ℕ × ℕ) :=
  edges.foldl keptStep []

/-- The edges the FDEB engine actually simulates. -/
def fdebKept (edges : List (ℕ × ℕ)) : List (ℕ × ℕ) :=
  keptEdges (fdebSimEdges edges)

/-- Python `set(edges)` deduplication (first occurrences kept). -/
def dedupEdges (es : List (ℕ × ℕ)) : List (ℕ × ℕ) :=
  es.foldl (fun acc e => if e ∈ acc then acc else acc ++ [e]) []

/-- Embeds `reverse_edges = list(set(edges) - unidirectional_edges)`
(line 440), on the self-loop-filtered list. -/
def fdebReverse (edges : List (ℕ × ℕ)) : List (ℕ × ℕ) :=
  (dedupEdges (fdebSimEdges edges)).filter (fun e => decide (e ∉ fdebKept edges))

/-- Dictionary lookup in an association list (first binding wins, as a
Python dict holds one binding per key). -/
def lookupPath (res : List ((ℕ × ℕ) × List Vec)) (e : ℕ × ℕ) :
    Option (List Vec) :=
  match res with
  | [] => none
  | r :: rs => if r.1 = e then some r.2 else lookupPath rs e

/-- One step of the reconstruction loop (lines 467-468):
`edge_to_control_points[(s,t)] = edge_to_control_points[(t,s)][::-1]`. -/
def assembleStep (res : List ((ℕ × ℕ) × List Vec)) (e : ℕ × ℕ) :
    List ((ℕ × ℕ) × List Vec) :=
  res ++ [(e, ((lookupPath res (e.2, e.1)).getD []).reverse)]

/-- Embeds the outer structure of `get_bundled_edge_paths`: drop
self-loops, keep one direction per bidirectional pair, simulate the kept
edges (the whole numeric pipeline of lines 443-464 is abstracted as
`sim`, mapping the kept edge list and a kept edge to its final path),
then reconstruct each dropped direction as the reversal of its
counterpart's path. -/
def bundledAssemble (sim : List (ℕ × ℕ) → (ℕ × ℕ) → List Vec)
    (edges : List (ℕ × ℕ)) : List ((ℕ × ℕ) × List Vec) :=
  let uni := fdebKept edges
  (fdebReverse edges).foldl assembleStep (uni.map (fun e => (e, sim uni e)))

/- ================================================================
   FDEB simulation loop
   src/netgraph/_edge_layout.py, `get_bundled_edge_paths` main loop
   (lines 449-459), `_initialize_bundled_control_points` (582-587),
   `_expand_control_points` (590-604), `_get_Fs` (607-616),
   `_get_Fe` (620-651), `_update_control_point_positions` (654-659)
   ================================================================ -/

/-- A control-point array, embedded as an index function; together with
an explicit length it models one edge's numpy array of control points
(values beyond the length are never consulted). -/
abbrev Arr : Type := ℕ → Vec

/-- An entry of `edge_compatibility` (line 505): the two edge indices,
their compatibility score, and whether the second chain is read in
reverse. The score is a parameter here because its computation (lines
478-507) involves vector norms; the invariant below holds for every
score. -/
structure CompatEntry where
  e1 : ℕ
  e2 : ℕ
  compat : ℚ
  reverse : Bool

/-- Embeds `_initialize_bundled_control_points` (lines 582-587): each
edge starts with the two-point array [position(source), position(target)].
The state pairs the per-edge arrays with the common array length. -/
def initBundled (pos : ℕ → Vec) (edges : ℕ → ℕ × ℕ) : (ℕ → Arr) × ℕ :=
  (fun e => fun i => if i = 0 then pos (edges e).1 else pos (edges e).2, 2)

/-- Embeds `_expand_control_points` (lines 590-604) on one array: even
indices keep the old points, odd index i gets
`0.5 * (p2 - p1) + p1` with p1 = old[(i-1)/2], p2 = old[(i+1)/2].
The new length is 2*(L-1)+1, tracked by the caller. -/
def expandArr (f : Arr) : Arr :=
  fun i =>
    if i % 2 = 0 then f (i / 2)
    else (((1 : ℚ)/2) • (f ((i + 1) / 2) - f ((i - 1) / 2)) + f ((i - 1) / 2) : Vec)

/-- Embeds the delta of `_get_Fs` (lines 610-613): zero at the first and
last index, discrete Laplacian `diff[i] - diff[i-1]` in the interior. -/
def sprDeltaArr (L : ℕ) (f : Arr) : Arr :=
  fun i =>
    if 0 < i ∧ i + 1 < L then ((f (i + 1) - f i) - (f i - f (i - 1)) : Vec)
    else (0 : Vec)

/-- Embeds `_get_Fs` (lines 607-616): the spring force is
`k_edge / (L - 1)` times the delta. -/
def getFsArr (L : ℕ) (ks : ℕ → ℚ) (chains : ℕ → Arr) : ℕ → Arr :=
  fun e => fun i => ((ks e / ((L : ℚ) - 1)) • sprDeltaArr L (chains e) i : Vec)

/-- Embeds `Q[::-1]` on an array of length L. -/
def reverseArr (L : ℕ) (f : Arr) : Arr :=
  fun i => f (L - 1 - i)

/-- Embeds the displacement of `_get_Fe` (lines 628-643): inverse-square
attraction `compat * delta / |delta|²` between corresponding control
points, with `displacement[0] = displacement[-1] = 0` (lines 641-643)
expressed by the index guard. -/
def feDispArr (L : ℕ) (c : ℚ) (P Qr : Arr) : Arr :=
  fun i =>
    if i = 0 ∨ i = L - 1 then (0 : Vec)
    else
      let d : Vec := Qr i - P i
      let dsq := d.1 ^ 2 + d.2 ^ 2
      (c * d.1 / dsq, c * d.2 / dsq)

/-- Embeds one compatibility-pair update of `_get_Fe` (lines 622-649):
`out[e1] += displacement` and `out[e2] -= displacement` (reversed when
the pair is flagged reversed). -/
def feStepArr (L : ℕ) (chains : ℕ → Arr) (out : ℕ → Arr)
    (entry : CompatEntry) : ℕ → Arr :=
  let P := chains entry.e1
  let Q := chains entry.e2
  let Qr := if entry.reverse then reverseArr L Q else Q
  let disp := feDispArr L entry.compat P Qr
  let disp2 := if entry.reverse then reverseArr L disp else disp
  let out1 := fun e => if e = entry.e1 then (fun i => (out e i + disp i : Vec)) else out e
  fun e => if e = entry.e2 then (fun i => (out1 e i - disp2 i : Vec)) else out1 e

/-- Embeds `_get_Fe` (lines 620-651): fold the pair updates over the
compatibility list, starting from the spring forces. -/
def getFeArr (L : ℕ) (compat : List CompatEntry) (chains out : ℕ → Arr) :
    ℕ → Arr :=
  compat.foldl (feStepArr L chains) out

/-- Embeds `_update_control_point_positions` (lines 654-659): each
edge's net force is rescaled by the clamping factor
`min(|F|, step_size) / |F|` — a Frobenius norm, hence a square root,
abstracted as the per-edge coefficient — and added to the chain. The
invariant below holds for every coefficient. -/
def updateArr (chains F : ℕ → Arr) (coeffs : ℕ → ℚ) : ℕ → Arr :=
  fun e => fun i => (chains e i + coeffs e • F e i : Vec)

/-- One sub-iteration of the FDEB main loop (lines 452-456):
spring forces, bundling forces, clamped update. -/
def fdebIterationArr (L : ℕ) (ks : ℕ → ℚ) (compat : List CompatEntry)
    (chains : ℕ → Arr) (coeffs : ℕ → ℚ) : ℕ → Arr :=
  updateArr chains (getFeArr L compat chains (getFsArr L ks chains)) coeffs

/-- One cycle of the FDEB main loop (lines 449-459): double the
control-point resolution, then run one sub-iteration per coefficient
list. The state carries the common array length. -/
def fdebCycleArr (ks : ℕ → ℚ) (compat : List CompatEntry)
    (state : (ℕ → Arr) × ℕ) (cycleCoeffs : List (ℕ → ℚ)) : (ℕ → Arr) × ℕ :=
  let L := 2 * (state.2 - 1) + 1
  let expanded := fun e => expandArr (state.1 e)
  (cycleCoeffs.foldl (fun ch co => fdebIterationArr L ks compat ch co) expanded, L)

/-- The FDEB simulation over a schedule: one entry per cycle, holding
one clamping-coefficient assignment per sub-iteration. Quantifying over
all schedules covers the source's run (5 cycles, 50 sub-iterations
shrinking by ⅓, step size halving — see `fdebIterCounts`) and every
prefix of it, i.e. the state after every sub-iteration and after every
doubling. -/
def fdebRunArr (ks : ℕ → ℚ) (compat : List CompatEntry)
    (init : (ℕ → Arr) × ℕ) (schedule : List (List (ℕ → ℚ))) :
    (ℕ → Arr) × ℕ :=
  schedule.foldl (fdebCycleArr ks compat) init

/-- The source's per-cycle sub-iteration counts (lines 449-459):
starting from `total_iterations`, each cycle runs
`int(2/3 * total_iterations)` fewer, mirrored by natural division. -/
def fdebIterCounts : ℕ → ℕ → List ℕ
  | 0, _ => []
  | c + 1, it => it :: fdebIterCounts c (2 * it / 3)

/-- The chain-endpoint invariant of the claim: for every edge, the first
control point equals the source node position and the last (at index
length - 1) equals the target node position. -/
def endsFixed (state : (ℕ → Arr) × ℕ) (pos : ℕ → Vec)
    (edges : ℕ → ℕ × ℕ) : Prop :=
  ∀ e, state.1 e 0 = pos (edges e).1 ∧
       state.1 e (state.2 - 1) = pos (edges e).2

/- ----------------------------------------------------------------
   THEOREMS
   ---------------------------------------------------------------- -/

theorem foldl_vmin_le_init (l : List Vec) (init : Vec) :
    (l.foldl vmin init).1 ≤ init.1 ∧ (l.foldl vmin init).2 ≤ init.2 := by
  induction l generalizing init with
  | nil => simp
  | cons r rs ih =>
    simp only [List.foldl_cons]
    have h := ih (vmin init r)
    exact ⟨le_trans h.1 (min_le_left _ _), le_trans h.2 (min_le_left _ _)⟩

theorem foldl_vmin_le_mem (l : List Vec) (p : Vec) (hp : p ∈ l) :
    ∀ init : Vec, (l.foldl vmin init).1 ≤ p.1 ∧ (l.foldl vmin init).2 ≤ p.2 := by
  induction l with
  | nil => cases hp
  | cons r rs ih =>
    intro init
    simp only [List.foldl_cons]
    rcases List.mem_cons.mp hp with h | h
    · subst h
      have h2 := foldl_vmin_le_init rs (vmin init p)
      exact ⟨le_trans h2.1 (min_le_right _ _), le_trans h2.2 (min_le_right _ _)⟩
    · exact ih h _

theorem colMin2_le (ps : List Vec) (p : Vec) (hp : p ∈ ps) :
    (colMin2 ps).1 ≤ p.1 ∧ (colMin2 ps).2 ≤ p.2 := by
  cases ps with
  | nil => cases hp
  | cons q rest =>
    simp only [colMin2]
    rcases List.mem_cons.mp hp with h | h
    · subst h; exact foldl_vmin_le_init rest p
    · exact foldl_vmin_le_mem rest p h q

theorem foldl_vmax_ge_init (l : List Vec) (init : Vec) :
    init.1 ≤ (l.foldl vmax init).1 ∧ init.2 ≤ (l.foldl vmax init).2 := by
  induction l generalizing init with
  | nil => simp
  | cons r rs ih =>
    simp only [List.foldl_cons]
    have h := ih (vmax init r)
    exact ⟨le_trans (le_max_left _ _) h.1, le_trans (le_max_left _ _) h.2⟩

theorem foldl_vmax_ge_mem (l : List Vec) (p : Vec) (hp : p ∈ l) :
    ∀ init : Vec, p.1 ≤ (l.foldl vmax init).1 ∧ p.2 ≤ (l.foldl vmax init).2 := by
  induction l with
  | nil => cases hp
  | cons r rs ih =>
    intro init
    simp only [List.foldl_cons]
    rcases List.mem_cons.mp hp with h | h
    · subst h
      have h2 := foldl_vmax_ge_init rs (vmax init p)
      exact ⟨le_trans (le_max_right _ _) h2.1, le_trans (le_max_right _ _) h2.2⟩
    · exact ih h _

theorem colMax2_ge (ps : List Vec) (p : Vec) (hp : p ∈ ps) :
    p.1 ≤ (colMax2 ps).1 ∧ p.2 ≤ (colMax2 ps).2 := by
  cases ps with
  | nil => cases hp
  | cons q rest =>
    simp only [colMax2]
    rcases List.mem_cons.mp hp with h | h
    · subst h; exact foldl_vmax_ge_init rest p
    · exact foldl_vmax_ge_mem rest p h q

theorem rescaleToFrame_within (ps : List Vec) (origin scale : Vec)
    (hs1 : 0 < scale.1) (hs2 : 0 < scale.2)
    (hx : 0 < (colMax2 (frShifted ps)).1) (hy : 0 < (colMax2 (frShifted ps)).2) :
    ∀ q ∈ rescaleToFrame ps origin scale, isWithinBbox origin scale q = true := by
  intro q hq
  simp only [rescaleToFrame, List.mem_map] at hq
  obtain ⟨sp, hsp, rfl⟩ := hq
  have hlb : 0 ≤ sp.1 ∧ 0 ≤ sp.2 := by
    simp only [frShifted, List.mem_map] at hsp
    obtain ⟨p, hp, rfl⟩ := hsp
    have hmin := colMin2_le ps p hp
    exact ⟨by simpa using sub_nonneg.mpr hmin.1, by simpa using sub_nonneg.mpr hmin.2⟩
  have hub := colMax2_ge (frShifted ps) sp hsp
  have h1 : 0 ≤ sp.1 / (colMax2 (frShifted ps)).1 ∧
      sp.1 / (colMax2 (frShifted ps)).1 ≤ 1 :=
    ⟨div_nonneg hlb.1 (le_of_lt hx), (div_le_one hx).mpr hub.1⟩
  have h2 : 0 ≤ sp.2 / (colMax2 (frShifted ps)).2 ∧
      sp.2 / (colMax2 (frShifted ps)).2 ≤ 1 :=
    ⟨div_nonneg hlb.2 (le_of_lt hy), (div_le_one hy).mpr hub.2⟩
  simp only [isWithinBbox, decide_eq_true_eq]
  refine ⟨by nlinarith [h1.1, h1.2], by nlinarith [h1.1, h1.2],
          by nlinarith [h2.1, h2.2], by nlinarith [h2.1, h2.2]⟩

theorem getElemMem {γ : Type _} (l : List γ) (i : ℕ) (a : γ)
    (h : l[i]? = some a) : a ∈ l := by
  induction l generalizing i with
  | nil => simp at h
  | cons x xs ih =>
    cases i with
    | zero => simp at h; subst h; exact List.mem_cons_self _ _
    | succ i =>
      simp at h
      exact List.mem_cons_of_mem _ (ih i h)

theorem maskScatter_get_of_false {γ : Type _} (mask : List Bool)
    (xs ys : List γ) (i : ℕ) (h : mask[i]? = some false) :
    (maskScatter mask xs ys)[i]? = xs[i]? := by
  induction mask generalizing xs ys i with
  | nil => simp at h
  | cons b bs ih =>
    cases xs with
    | nil => cases b <;> simp [maskScatter]
    | cons x xs =>
      cases i with
      | zero =>
        simp at h
        subst h
        simp [maskScatter]
      | succ i =>
        simp at h
        cases b with
        | false => simpa [maskScatter] using ih xs ys i h
        | true =>
          cases ys with
          | nil => simpa [maskScatter] using ih xs [] i h
          | cons y ys => simpa [maskScatter] using ih xs ys i h

theorem zip_get_eq {α β : Type _} (l1 : List α) (l2 : List β) (i : ℕ)
    (a : α) (b : β) (h1 : l1[i]? = some a) (h2 : l2[i]? = some b) :
    (l1.zip l2)[i]? = some (a, b) := by
  induction l1 generalizing l2 i with
  | nil => simp at h1
  | cons x xs ih =>
    cases l2 with
    | nil => simp at h2
    | cons y ys =>
      cases i with
      | zero => simp_all
      | succ i => simp_all [List.zip_cons_cons]

/-- C1: the crossing predicate of the circular layout optimizer is claimed
to return true iff the two edges' endpoint index pairs strictly interleave,
and to be symmetric. On the order [0,1,2,3], edges (1,3) and (0,2) have
index pairs (1,3) and (0,2), which strictly interleave, yet `_is_cross`
returns False in that argument order and True with the arguments swapped:
its second branch compares `t2 < t2`, which never holds (a slip for
`t2 < t1`). -/
theorem c1_isCross_misses_interleaving_pair :
    inOrderIndices [0, 1, 2, 3] (1, 3) = [1, 3] ∧
    inOrderIndices [0, 1, 2, 3] (0, 2) = [0, 2] ∧
    strictlyInterleave 1 3 0 2 ∧
    isCross [0, 1, 2, 3] (1, 3) (0, 2) = false ∧
    isCross [0, 1, 2, 3] (0, 2) (1, 3) = true := by
  decide

/-- C2: the packer's rescaling step is claimed to shift the union of the
returned boxes so its lower-left corner equals `origin`. The source never
uses its `origin` parameter: on boxes [(0,0,1,1), (2,1,1,1)] with origin
(1,1) and scale (1,1) the union's lower-left corner is (0,0) ≠ (1,1),
while the union's width/height do equal `scale`. -/
theorem c2_rescale_ignores_origin :
    rescaleBboxesToCanvas [Bbox.mk 0 0 1 1, Bbox.mk 2 1 1 1] (1, 1) (1, 1)
      = [Bbox.mk 0 0 (1/3) (1/2), Bbox.mk (2/3) (1/2) (1/3) (1/2)] ∧
    unionLowerLeft
      (rescaleBboxesToCanvas [Bbox.mk 0 0 1 1, Bbox.mk 2 1 1 1] (1, 1) (1, 1))
      = (0, 0) ∧
    ((0, 0) : Vec) ≠ (1, 1) ∧
    unionDims
      (rescaleBboxesToCanvas [Bbox.mk 0 0 1 1, Bbox.mk 2 1 1 1] (1, 1) (1, 1))
      = (1, 1) := by
  refine ⟨?_, ?_, by norm_num [Prod.ext_iff], ?_⟩ <;>
    norm_num [rescaleBboxesToCanvas, unionLowerLeft, unionDims, colMin2, colMax2,
      vmin, vmax, Prod.ext_iff, Bbox.mk.injEq]

/-- C3: the FDEB position-compatibility factor is claimed to equal
avg/(avg + d) with d the distance between the two segments' midpoints
(p0+p1)/2. The source computes `Segment.midpoint` as the elementwise
product `p0 * 0.5 * vector`: for P from (0,0) to (3,0) and Q from (0,4)
to (3,4) both "midpoints" collapse to (0,0), the code returns 1, while
the spec's formula gives 3/7. -/
theorem c3_position_compatibility_wrong_midpoint :
    positionCompatibility (0, 0) (3, 0) (0, 4) (3, 4) = 1 ∧
    specPositionCompatibility (0, 0) (3, 0) (0, 4) (3, 4) = 3 / 7 ∧
    (1 : ℝ) ≠ 3 / 7 := by
  have s9 : Real.sqrt 9 = 3 := by
    rw [show (9:ℝ) = 3 ^ 2 by norm_num]
    exact Real.sqrt_sq (by norm_num)
  have s16 : Real.sqrt 16 = 4 := by
    rw [show (16:ℝ) = 4 ^ 2 by norm_num]
    exact Real.sqrt_sq (by norm_num)
  refine ⟨?_, ?_, by norm_num⟩
  · unfold positionCompatibility segMidpoint segLength segVector vecNormR
    norm_num [s9, Real.sqrt_zero]
  · unfold specPositionCompatibility specSegMidpoint segLength segVector vecNormR
    norm_num [s9, s16]

/-- C4 counterexample: the claim quantifies over every call with no
fixed nodes, but a multi-component call goes through the packer, whose
rescaling ignores `origin` (see `c2_rescale_ignores_origin`): with the
non-empty edge list [(0,0)], an extra supplied node 5 (two singleton
components) and canvas origin (5,5), scale (1,1), every returned
position lies in [0,1]×[0,1], outside [5,6]×[5,6]. The engine body is
never reached, so its instantiation is irrelevant; `bboxDim` is the
constant 1, the exact value of `n ** 0.8` at the only used argument
n = 1, and `shelfPack` stands for the external `rpack.pack`. -/
theorem c4_counterexample_multi_component_ignores_origin :
    getFRLayoutDecorated (fun _ _ _ => []) (fun _ => 1) shelfPack [(0, 0)]
      (some [5]) (5, 5) (1, 1)
      = Except.ok [(0, (10/41, 1/2)), (5, (31/41, 1/2))] ∧
    isWithinBbox (5, 5) (1, 1) (10/41, 1/2) = false ∧
    isWithinBbox (5, 5) (1, 1) (31/41, 1/2) = false := by
  refine ⟨?_, by norm_num [isWithinBbox], by norm_num [isWithinBbox]⟩
  norm_num [getFRLayoutDecorated, handleMultipleComponentsFR, connectedComponents,
    uniqueNodes, dedupNodes, reachFrom, extendComp, layoutForMultipleComponents,
    layoutComponentsLoop, getComponentBboxes, intTrunc, shelfPack,
    rescaleBboxesToCanvas, colMin2, colMax2, vmin, vmax, subgraphEdges,
    frInnerAssert, Rat.num_ofNat, Rat.den_ofNat]

/-- C4 (amended): for a call whose edge list forms at most one connected
component (so the `_handle_multiple_components` decorator delegates
directly to the engine body: first conjunct), a force-directed run with
no fixed nodes returns only positions within [origin, origin+scale]
componentwise (second conjunct). The force computation is abstracted as
`step` (the conclusion holds for every force function); the hypotheses
require the canvas scale to be positive (§3 BoundingBox invariant) and
the positions entering the final `_rescale_to_frame` to have positive
spread on each axis (otherwise the numpy division
`node_positions /= np.max(...)` is degenerate). Multi-component calls
violate the containment because the packer ignores `origin` — see the
counterexample. -/
theorem c4_single_component_within_bbox
    (innerBody : List (ℕ × ℕ) → Vec → Vec → List (ℕ × Vec))
    (bboxDim : ℕ → ℚ) (pack : List (ℤ × ℤ) → List (ℤ × ℤ))
    (step : ℕ → List Vec → List Vec → List Vec) (edges : List (ℕ × ℕ))
    (positions : List Vec) (origin scale : Vec) (iters : ℕ)
    (hconn : (connectedComponents edges).length ≤ 1)
    (hs1 : 0 < scale.1) (hs2 : 0 < scale.2)
    (hx : 0 < (colMax2 (frShifted
      (frScattered step (uniqueNodes edges) [] positions origin scale iters))).1)
    (hy : 0 < (colMax2 (frShifted
      (frScattered step (uniqueNodes edges) [] positions origin scale iters))).2) :
    getFRLayoutDecorated innerBody bboxDim pack edges none origin scale
      = frInnerAssert innerBody edges origin scale ∧
    ∀ q ∈ frLayout step (uniqueNodes edges) [] positions origin scale iters,
      isWithinBbox origin scale q.2 = true := by
  constructor
  · simp only [getFRLayoutDecorated, handleMultipleComponentsFR]
    split
    · next hcond => exact absurd hcond (by omega)
    · rfl
  · intro q hq
    obtain ⟨n, v⟩ := q
    have hmask : (isMobileMask (uniqueNodes edges) []).all (fun b => b) = true := by
      simp [isMobileMask]
    simp only [frLayout, hmask, if_true] at hq
    have hmem := List.of_mem_zip hq
    exact rescaleToFrame_within _ origin scale hs1 hs2 hx hy v hmem.2

theorem c4_single_component_within_bbox_witness :
    getFRLayoutDecorated (fun _ _ _ => []) (fun _ => 1) shelfPack [(0, 1)]
      none (0, 0) (1, 1)
      = frInnerAssert (fun _ _ _ => []) [(0, 1)] (0, 0) (1, 1) ∧
    isWithinBbox (0, 0) (1, 1) ((0, 0) : Vec) = true :=
  have h := c4_single_component_within_bbox (fun _ _ _ => []) (fun _ => 1)
    shelfPack (fun _ m _ => m) [(0, 1)] [(0, 0), (1, 1)] (0, 0) (1, 1) 0
    (by decide)
    (by norm_num) (by norm_num)
    (by norm_num [frScattered, frMainLoop, maskSelect, maskScatter, isMobileMask,
      uniqueNodes, frShifted, colMin2, colMax2, vmin, vmax])
    (by norm_num [frScattered, frMainLoop, maskSelect, maskScatter, isMobileMask,
      uniqueNodes, frShifted, colMin2, colMax2, vmin, vmax])
  ⟨h.1, h.2 ((0 : ℕ), ((0 : ℚ), (0 : ℚ)))
    (by norm_num [frLayout, frScattered, frMainLoop, maskSelect, maskScatter,
      isMobileMask, uniqueNodes, rescaleToFrame, frShifted, colMin2, colMax2,
      vmin, vmax])⟩

/-- C5 counterexample: the claim quantifies over every call declaring a
non-empty fixed-node set with valid initial positions, but a fixed node
forming its own singleton component in a decorated multi-component call
is placed at the centre of its bounding box by
`get_layout_for_multiple_components` line 107, which ignores the
`node_positions` and `fixed_nodes` keyword arguments: node 5 is declared
fixed at (1/5, 1/2) (inside the canvas), yet the returned mapping
carries 5 ↦ (31/41, 1/2), and no error is raised. The engine body is
never reached (both components are singletons); `bboxDim` is the
constant 1, the exact value of `n ** 0.8` at the only used argument
n = 1, and `shelfPack` stands for the external `rpack.pack`. -/
theorem c5_counterexample_singleton_fixed_node_moved :
    handleMultipleComponentsKw (fun _ _ _ _ _ => Except.ok []) (fun _ => 1)
      shelfPack [(0, 0)] (some [5]) (0, 0) (1, 1)
      [(0, (1/10, 1/10)), (5, (1/5, 1/2))] [5]
      = Except.ok [(0, (10/41, 1/2)), (5, (31/41, 1/2))] ∧
    isWithinBbox (0, 0) (1, 1) (1/5, 1/2) = true ∧
    ((31 : ℚ)/41, (1 : ℚ)/2) ≠ ((1 : ℚ)/5, (1 : ℚ)/2) := by
  refine ⟨?_, by norm_num [isWithinBbox], by norm_num [Prod.ext_iff]⟩
  norm_num [handleMultipleComponentsKw, connectedComponents,
    uniqueNodes, dedupNodes, reachFrom, extendComp,
    layoutComponentsLoopKw, getComponentBboxes, intTrunc, shelfPack,
    rescaleBboxesToCanvas, colMin2, colMax2, vmin, vmax, subgraphEdges,
    Rat.num_ofNat, Rat.den_ofNat]

/-- C5 (amended): for a call whose edge list forms at most one connected
component (so the decorator delegates directly to the engine body with
the `node_positions` and `fixed_nodes` keyword arguments passed through
unchanged: first conjunct), each fixed node's position in the returned
mapping is identical to its supplied initial position, and the final
canvas rescaling is skipped — the output is the raw scattered array, not
its `_rescale_to_frame` image (second and third conjuncts, holding for
every force function `step`). A fixed node forming a singleton component
of a multi-component call is instead overwritten with its bounding-box
centre — see the counterexample. -/
theorem c5_fixed_nodes_unmoved_single_component
    (inner : List (ℕ × ℕ) → Vec → Vec → List (ℕ × Vec) → List ℕ →
      Except String (List (ℕ × Vec)))
    (bboxDim : ℕ → ℚ) (pack : List (ℤ × ℤ) → List (ℤ × ℤ))
    (edges : List (ℕ × ℕ)) (nodePositions : List (ℕ × Vec))
    (fixedArg : List ℕ)
    (step : ℕ → List Vec → List Vec → List Vec)
    (nodes fixedNodes : List ℕ) (positions : List Vec)
    (origin scale : Vec) (iters i : ℕ) (n : ℕ) (p : Vec)
    (hconn : (connectedComponents edges).length ≤ 1)
    (hn : nodes[i]? = some n) (hp : positions[i]? = some p)
    (hfix : fixedNodes.contains n = true) :
    handleMultipleComponentsKw inner bboxDim pack edges none origin scale
        nodePositions fixedArg
      = inner edges origin scale nodePositions fixedArg ∧
    (frLayout step nodes fixedNodes positions origin scale iters)[i]? = some (n, p) ∧
    frLayout step nodes fixedNodes positions origin scale iters
      = nodes.zip (frScattered step nodes fixedNodes positions origin scale iters) := by
  refine ⟨?_, ?_⟩
  · simp only [handleMultipleComponentsKw]
    split
    · next hcond => exact absurd hcond (by omega)
    · rfl
  have hmemfix : n ∈ fixedNodes := by simpa using hfix
  have hmaski : (isMobileMask nodes fixedNodes)[i]? = some false := by
    simp [isMobileMask, hn, hmemfix]
  have hall : (isMobileMask nodes fixedNodes).all (fun b => b) = false := by
    cases hb : (isMobileMask nodes fixedNodes).all (fun b => b) with
    | false => rfl
    | true =>
      exfalso
      have hmem : (false : Bool) ∈ isMobileMask nodes fixedNodes :=
        getElemMem _ i false hmaski
      have := (List.all_eq_true.mp hb) false hmem
      simp at this
  have harr : (frScattered step nodes fixedNodes positions origin scale iters)[i]?
      = some p := by
    simp only [frScattered]
    rw [maskScatter_get_of_false _ _ _ _ hmaski]
    exact hp
  constructor
  · simp only [frLayout, hall, Bool.false_eq_true, if_false]
    exact zip_get_eq nodes _ i n p hn harr
  · simp only [frLayout, hall, Bool.false_eq_true, if_false]

theorem c5_fixed_nodes_unmoved_single_component_witness :
    handleMultipleComponentsKw (fun _ _ _ _ _ => Except.ok []) (fun _ => 1)
        shelfPack [(0, 1)] none (0, 0) (1, 1) [] []
      = Except.ok [] ∧
    (frLayout (fun _ m _ => m) [0, 1] [1] [(0, 0), (2, 3)] (0, 0) (1, 1) 5)[1]?
      = some (1, ((2 : ℚ), (3 : ℚ))) ∧
    frLayout (fun _ m _ => m) [0, 1] [1] [(0, 0), (2, 3)] (0, 0) (1, 1) 5
      = [0, 1].zip (frScattered (fun _ m _ => m) [0, 1] [1] [(0, 0), (2, 3)]
          (0, 0) (1, 1) 5) :=
  c5_fixed_nodes_unmoved_single_component (fun _ _ _ _ _ => Except.ok [])
    (fun _ => 1) shelfPack [(0, 1)] [] [] (fun _ m _ => m) [0, 1] [1]
    [(0, 0), (2, 3)] (0, 0) (1, 1) 5 1 1 (2, 3)
    (by decide)
    rfl rfl rfl

/-- C7 (amended): a call of the decorated force-directed engine with an
empty edge list raises the empty-edge validation error whenever fewer
than two distinct unconnected nodes are supplied alongside (in
particular, whenever no `nodes` argument is given). With two or more
supplied nodes the decorator takes the multi-component path instead and
returns a mapping without error (see the counterexample). -/
theorem c7_empty_edges_error_when_few_nodes
    (innerBody : List (ℕ × ℕ) → Vec → Vec → List (ℕ × Vec))
    (bboxDim : ℕ → ℚ) (pack : List (ℤ × ℤ) → List (ℤ × ℤ))
    (nodes : Option (List ℕ)) (origin scale : Vec)
    (h : (dedupNodes (nodes.getD [])).length ≤ 1) :
    getFRLayoutDecorated innerBody bboxDim pack [] nodes origin scale
      = Except.error emptyEdgeMsg := by
  cases nodes with
  | none => rfl
  | some ns =>
    have h1 : (dedupNodes ns).length ≤ 1 := h
    simp only [getFRLayoutDecorated, handleMultipleComponentsFR]
    split
    · next hcond =>
      exfalso
      simp only [show connectedComponents [] = [] from rfl, List.nil_append,
        List.length_map] at hcond
      have h2 := List.length_filter_le
        (fun n => ¬ (uniqueNodes ([] : List (ℕ × ℕ))).contains n) (dedupNodes ns)
      omega
    · rfl

theorem c7_empty_edges_error_witness :
    getFRLayoutDecorated (fun _ _ _ => []) (fun _ => 1) shelfPack [] (some [7])
      (0, 0) (1, 1) = Except.error emptyEdgeMsg :=
  c7_empty_edges_error_when_few_nodes (fun _ _ _ => []) (fun _ => 1) shelfPack
    (some [7]) (0, 0) (1, 1) (by simp [dedupNodes])

/-- C7 counterexample: the claim as stated quantifies over every call
with an empty edge list, but supplying two unconnected nodes makes the
decorator build two singleton components and return their centre
placements — no validation error is raised. (`bboxDim` is instantiated
with the constant 1, which is the exact value of `n ** 0.8` at the only
used argument n = 1; `shelfPack` stands for the external `rpack.pack`.) -/
theorem c7_counterexample_two_supplied_nodes :
    getFRLayoutDecorated (fun _ _ _ => []) (fun _ => 1) shelfPack [] (some [1, 2])
      (0, 0) (1, 1)
      = Except.ok [(1, (10/41, 1/2)), (2, (31/41, 1/2))] := by
  norm_num [getFRLayoutDecorated, handleMultipleComponentsFR, connectedComponents,
    uniqueNodes, dedupNodes, reachFrom, extendComp, layoutForMultipleComponents,
    layoutComponentsLoop, getComponentBboxes, intTrunc, shelfPack,
    rescaleBboxesToCanvas, colMin2, colMax2, vmin, vmax, subgraphEdges,
    frInnerAssert, Rat.num_ofNat, Rat.den_ofNat]

/-- C9: re-running a stochastic layout with an identical random seed and
identical inputs is bit-for-bit reproducible: both the random layout and
the force-directed engine started from seeded random initial positions
are deterministic functions of their inputs and the seed (randomness is
an explicitly threaded PRNG state, and no other state exists). -/
theorem c9_seeded_runs_reproducible
    (step : ℕ → List Vec → List Vec → List Vec) (edges : List (ℕ × ℕ))
    (origin scale : Vec) (iters : ℕ) (s1 s2 : ℕ) (h : s1 = s2) :
    getRandomLayout s1 edges origin scale = getRandomLayout s2 edges origin scale ∧
    frLayoutSeeded step s1 edges origin scale iters
      = frLayoutSeeded step s2 edges origin scale iters := by
  subst h
  exact ⟨rfl, rfl⟩

theorem c9_seeded_runs_reproducible_witness :
    getRandomLayout 42 [(0, 1)] (0, 0) (1, 1)
      = getRandomLayout 42 [(0, 1)] (0, 0) (1, 1) ∧
    frLayoutSeeded (fun _ m _ => m) 42 [(0, 1)] (0, 0) (1, 1) 3
      = frLayoutSeeded (fun _ m _ => m) 42 [(0, 1)] (0, 0) (1, 1) 3 :=
  c9_seeded_runs_reproducible (fun _ m _ => m) [(0, 1)] (0, 0) (1, 1) 3 42 42 rfl

/-- C10: every call of the curved-edge router that leaves `k` at its
default `None` fails with an unbound-name error before any paths are
computed: the default-k initialization reads `len(nodes)` and `nodes` is
in no scope visible from that line, so the call errors for every
control-point pipeline `paths`. -/
theorem c10_curved_default_k_name_error
    (paths : ℚ → List ((ℕ × ℕ) × List Vec)) :
    getCurvedEdgePaths paths none
        = Except.error "NameError: name nodes is not defined" ∧
    curvedEdgeScopeNames.contains "nodes" = false := by
  exact ⟨rfl, rfl⟩

theorem keptStep_mono (acc : List (ℕ × ℕ)) (e x : ℕ × ℕ) (hx : x ∈ acc) :
    x ∈ keptStep acc e := by
  unfold keptStep
  split_ifs <;> first | exact hx | exact List.mem_append_left _ hx

theorem keptEdges_fold_mono (l : List (ℕ × ℕ)) (acc : List (ℕ × ℕ))
    (x : ℕ × ℕ) (hx : x ∈ acc) : x ∈ l.foldl keptStep acc := by
  induction l generalizing acc with
  | nil => exact hx
  | cons e es ih => exact ih (keptStep acc e) (keptStep_mono acc e x hx)

theorem keptEdges_fold_cover (l : List (ℕ × ℕ)) (acc : List (ℕ × ℕ))
    (a b : ℕ) (h : (a, b) ∈ l ∨ (a, b) ∈ acc ∨ (b, a) ∈ acc) :
    (a, b) ∈ l.foldl keptStep acc ∨ (b, a) ∈ l.foldl keptStep acc := by
  induction l generalizing acc with
  | nil =>
    rcases h with h | h | h
    · cases h
    · exact Or.inl h
    · exact Or.inr h
  | cons e es ih =>
    simp only [List.foldl_cons]
    apply ih
    rcases h with h | h | h
    · rcases List.mem_cons.mp h with h' | h'
      · subst h'
        unfold keptStep
        split_ifs with h1 h2
        · exact Or.inr (Or.inr h1)
        · exact Or.inr (Or.inl h2)
        · exact Or.inr (Or.inl (List.mem_append_right _ (List.mem_singleton.mpr rfl)))
      · exact Or.inl h'
    · exact Or.inr (Or.inl (keptStep_mono acc e _ h))
    · exact Or.inr (Or.inr (keptStep_mono acc e _ h))

theorem keptStep_excl (acc : List (ℕ × ℕ)) (e : ℕ × ℕ)
    (h : ∀ u v : ℕ, u ≠ v → ¬ ((u, v) ∈ acc ∧ (v, u) ∈ acc)) :
    ∀ u v : ℕ, u ≠ v → ¬ ((u, v) ∈ keptStep acc e ∧ (v, u) ∈ keptStep acc e) := by
  intro u v huv hc
  unfold keptStep at hc
  split_ifs at hc with h1 h2
  · exact h u v huv hc
  · exact h u v huv hc
  · rcases hc with ⟨hm1, hm2⟩
    rcases List.mem_append.mp hm1 with hm1 | hm1
    · rcases List.mem_append.mp hm2 with hm2 | hm2
      · exact h u v huv ⟨hm1, hm2⟩
      · -- (v,u) = e, (u,v) ∈ acc, so (e.2,e.1) = (u,v) ∈ acc: contradicts h1
        have he : (v, u) = e := List.mem_singleton.mp hm2
        apply h1
        rw [← he]
        exact hm1
    · rcases List.mem_append.mp hm2 with hm2 | hm2
      · have he : (u, v) = e := List.mem_singleton.mp hm1
        apply h1
        rw [← he]
        exact hm2
      · have he1 : (u, v) = e := List.mem_singleton.mp hm1
        have he2 : (v, u) = e := List.mem_singleton.mp hm2
        rw [← he2] at he1
        exact huv (Prod.ext_iff.mp he1).1

theorem keptEdges_excl (l : List (ℕ × ℕ)) (a b : ℕ) (hne : a ≠ b) :
    ¬ ((a, b) ∈ keptEdges l ∧ (b, a) ∈ keptEdges l) := by
  unfold keptEdges
  have key : ∀ acc : List (ℕ × ℕ),
      (∀ u v : ℕ, u ≠ v → ¬ ((u, v) ∈ acc ∧ (v, u) ∈ acc)) →
      ∀ u v : ℕ, u ≠ v →
      ¬ ((u, v) ∈ l.foldl keptStep acc ∧ (v, u) ∈ l.foldl keptStep acc) := by
    induction l with
    | nil => intro acc hacc; exact hacc
    | cons e es ih =>
      intro acc hacc
      simp only [List.foldl_cons]
      exact ih (keptStep acc e) (keptStep_excl acc e hacc)
  exact key [] (by simp) a b hne

theorem dedup_fold_mem (l : List (ℕ × ℕ)) (x : ℕ × ℕ) :
    ∀ acc : List (ℕ × ℕ), x ∈ l ∨ x ∈ acc →
    x ∈ l.foldl (fun acc e => if e ∈ acc then acc else acc ++ [e]) acc := by
  induction l with
  | nil =>
    intro acc h
    rcases h with h | h
    · cases h
    · exact h
  | cons e es ih =>
    intro acc h
    simp only [List.foldl_cons]
    apply ih
    rcases h with h | h
    · rcases List.mem_cons.mp h with h' | h'
      · subst h'
        right
        split_ifs with h1
        · exact h1
        · exact List.mem_append_right _ (List.mem_singleton.mpr rfl)
      · exact Or.inl h'
    · right
      split_ifs
      · exact h
      · exact List.mem_append_left _ h

theorem dedupEdges_mem_of_mem (es : List (ℕ × ℕ)) (x : ℕ × ℕ) (hx : x ∈ es) :
    x ∈ dedupEdges es :=
  dedup_fold_mem es x [] (Or.inl hx)

theorem lookupPath_append_of_some (res extra : List ((ℕ × ℕ) × List Vec))
    (k : ℕ × ℕ) (v : List Vec) (h : lookupPath res k = some v) :
    lookupPath (res ++ extra) k = some v := by
  induction res with
  | nil => simp [lookupPath] at h
  | cons r rs ih =>
    simp only [lookupPath, List.cons_append] at h ⊢
    by_cases hr : r.1 = k
    · rw [if_pos hr] at h ⊢
      exact h
    · rw [if_neg hr] at h ⊢
      exact ih h

theorem lookupPath_append_single_ne (res : List ((ℕ × ℕ) × List Vec))
    (k e : ℕ × ℕ) (v' : List Vec) (h : lookupPath res k = none) (hne : e ≠ k) :
    lookupPath (res ++ [(e, v')]) k = none := by
  induction res with
  | nil => simp [lookupPath, hne]
  | cons r rs ih =>
    simp only [lookupPath, List.cons_append] at h ⊢
    by_cases hr : r.1 = k
    · rw [if_pos hr] at h
      simp at h
    · rw [if_neg hr] at h ⊢
      exact ih h

theorem lookupPath_append_single_self (res : List ((ℕ × ℕ) × List Vec))
    (k : ℕ × ℕ) (v' : List Vec) (h : lookupPath res k = none) :
    lookupPath (res ++ [(k, v')]) k = some v' := by
  induction res with
  | nil => simp [lookupPath]
  | cons r rs ih =>
    simp only [lookupPath, List.cons_append] at h ⊢
    by_cases hr : r.1 = k
    · rw [if_pos hr] at h
      simp at h
    · rw [if_neg hr] at h ⊢
      exact ih h

theorem lookupPath_map_self (f : (ℕ × ℕ) → List Vec) (uni : List (ℕ × ℕ))
    (k : ℕ × ℕ) (hk : k ∈ uni) :
    lookupPath (uni.map (fun e => (e, f e))) k = some (f k) := by
  induction uni with
  | nil => cases hk
  | cons u us ih =>
    simp only [List.map_cons, lookupPath]
    by_cases hu : u = k
    · subst hu
      simp
    · rw [if_neg (by simpa using hu)]
      have hk' : k ∈ us := by
        rcases List.mem_cons.mp hk with h | h
        · exact absurd h.symm hu
        · exact h
      exact ih hk'

theorem lookupPath_map_none (f : (ℕ × ℕ) → List Vec) (uni : List (ℕ × ℕ))
    (k : ℕ × ℕ) (hk : k ∉ uni) :
    lookupPath (uni.map (fun e => (e, f e))) k = none := by
  induction uni with
  | nil => simp [lookupPath]
  | cons u us ih =>
    have hu : u ≠ k := fun h => hk (h ▸ List.mem_cons_self _ _)
    simp only [List.map_cons, lookupPath]
    rw [if_neg (by simpa using hu)]
    exact ih (fun h => hk (List.mem_cons_of_mem _ h))

theorem assemble_fold_some (rs : List (ℕ × ℕ))
    (res : List ((ℕ × ℕ) × List Vec)) (k : ℕ × ℕ) (v : List Vec)
    (h : lookupPath res k = some v) :
    lookupPath (rs.foldl assembleStep res) k = some v := by
  induction rs generalizing res with
  | nil => exact h
  | cons e es ih =>
    simp only [List.foldl_cons]
    exact ih _ (lookupPath_append_of_some res _ k v h)

theorem assemble_fold_reverse (rs : List (ℕ × ℕ))
    (res : List ((ℕ × ℕ) × List Vec)) (a b : ℕ) (v : List Vec)
    (hmem : (b, a) ∈ rs) (hnone : lookupPath res (b, a) = none)
    (hsome : lookupPath res (a, b) = some v) :
    lookupPath (rs.foldl assembleStep res) (b, a) = some v.reverse := by
  induction rs generalizing res with
  | nil => cases hmem
  | cons e es ih =>
    simp only [List.foldl_cons]
    by_cases he : e = (b, a)
    · subst he
      have hstep : lookupPath (assembleStep res (b, a)) (b, a) = some v.reverse := by
        unfold assembleStep
        simp only [hsome, Option.getD_some]
        exact lookupPath_append_single_self res (b, a) v.reverse hnone
      exact assemble_fold_some es _ _ _ hstep
    · have hmem' : (b, a) ∈ es := by
        rcases List.mem_cons.mp hmem with h | h
        · exact absurd h.symm he
        · exact h
      apply ih _ hmem'
      · exact lookupPath_append_single_ne res (b, a) e _ hnone he
      · exact lookupPath_append_of_some res _ (a, b) v hsome

theorem c8_core (sim : List (ℕ × ℕ) → (ℕ × ℕ) → List Vec)
    (edges : List (ℕ × ℕ)) (x y : ℕ)
    (hyxE : (y, x) ∈ fdebSimEdges edges)
    (hxk : (x, y) ∈ fdebKept edges) (hynk : (y, x) ∉ fdebKept edges) :
    lookupPath (bundledAssemble sim edges) (x, y)
      = some (sim (fdebKept edges) (x, y)) ∧
    lookupPath (bundledAssemble sim edges) (y, x)
      = some ((sim (fdebKept edges) (x, y)).reverse) := by
  have hbase_xy : lookupPath
      ((fdebKept edges).map (fun e => (e, sim (fdebKept edges) e))) (x, y)
      = some (sim (fdebKept edges) (x, y)) :=
    lookupPath_map_self _ _ _ hxk
  have hbase_yx : lookupPath
      ((fdebKept edges).map (fun e => (e, sim (fdebKept edges) e))) (y, x)
      = none :=
    lookupPath_map_none _ _ _ hynk
  have hrev : (y, x) ∈ fdebReverse edges := by
    unfold fdebReverse
    rw [List.mem_filter]
    exact ⟨dedupEdges_mem_of_mem _ _ hyxE, by simpa using hynk⟩
  constructor
  · exact assemble_fold_some _ _ _ _ hbase_xy
  · exact assemble_fold_reverse _ _ x y _ hrev hbase_yx hbase_xy

/-- C8: for every edge list containing a bidirectional pair (a,b), (b,a)
with a ≠ b, the FDEB engine simulates exactly one direction of the pair,
and the returned path for the other direction is the element-wise
reversal of the simulated direction's path. Holds for every simulation
pipeline `sim` (the numeric bundling of lines 443-464). -/
theorem c8_bidirectional_pair_reversal
    (sim : List (ℕ × ℕ) → (ℕ × ℕ) → List Vec) (edges : List (ℕ × ℕ))
    (a b : ℕ) (hab : (a, b) ∈ edges) (hba : (b, a) ∈ edges) (hne : a ≠ b) :
    ((a, b) ∈ fdebKept edges ∧ (b, a) ∉ fdebKept edges ∧
     lookupPath (bundledAssemble sim edges) (a, b)
       = some (sim (fdebKept edges) (a, b)) ∧
     lookupPath (bundledAssemble sim edges) (b, a)
       = some ((sim (fdebKept edges) (a, b)).reverse)) ∨
    ((b, a) ∈ fdebKept edges ∧ (a, b) ∉ fdebKept edges ∧
     lookupPath (bundledAssemble sim edges) (b, a)
       = some (sim (fdebKept edges) (b, a)) ∧
     lookupPath (bundledAssemble sim edges) (a, b)
       = some ((sim (fdebKept edges) (b, a)).reverse)) := by
  have habE : (a, b) ∈ fdebSimEdges edges := by
    unfold fdebSimEdges
    rw [List.mem_filter]
    exact ⟨hab, by simpa using hne⟩
  have hbaE : (b, a) ∈ fdebSimEdges edges := by
    unfold fdebSimEdges
    rw [List.mem_filter]
    exact ⟨hba, by simpa using hne.symm⟩
  have hcover := keptEdges_fold_cover (fdebSimEdges edges) [] a b (Or.inl habE)
  have hexcl := keptEdges_excl (fdebSimEdges edges) a b hne
  rcases hcover with hk | hk
  · have hnk : (b, a) ∉ keptEdges (fdebSimEdges edges) := fun h => hexcl ⟨hk, h⟩
    exact Or.inl ⟨hk, hnk, (c8_core sim edges a b hbaE hk hnk).1,
      (c8_core sim edges a b hbaE hk hnk).2⟩
  · have hnk : (a, b) ∉ keptEdges (fdebSimEdges edges) := by
      intro h
      exact hexcl ⟨h, hk⟩
    exact Or.inr ⟨hk, hnk, (c8_core sim edges b a habE hk hnk).1,
      (c8_core sim edges b a habE hk hnk).2⟩

theorem c8_bidirectional_pair_reversal_witness :
    (((1, 2) ∈ fdebKept [(1, 2), (2, 1)] ∧ (2, 1) ∉ fdebKept [(1, 2), (2, 1)] ∧
      lookupPath (bundledAssemble (fun _ _ => [(0, 0), (1, 1)]) [(1, 2), (2, 1)]) (1, 2)
        = some [(0, 0), (1, 1)] ∧
      lookupPath (bundledAssemble (fun _ _ => [(0, 0), (1, 1)]) [(1, 2), (2, 1)]) (2, 1)
        = some ([((0 : ℚ), (0 : ℚ)), (1, 1)].reverse)) ∨
     ((2, 1) ∈ fdebKept [(1, 2), (2, 1)] ∧ (1, 2) ∉ fdebKept [(1, 2), (2, 1)] ∧
      lookupPath (bundledAssemble (fun _ _ => [(0, 0), (1, 1)]) [(1, 2), (2, 1)]) (2, 1)
        = some [(0, 0), (1, 1)] ∧
      lookupPath (bundledAssemble (fun _ _ => [(0, 0), (1, 1)]) [(1, 2), (2, 1)]) (1, 2)
        = some ([((0 : ℚ), (0 : ℚ)), (1, 1)].reverse))) :=
  c8_bidirectional_pair_reversal (fun _ _ => [(0, 0), (1, 1)]) [(1, 2), (2, 1)]
    1 2 (by simp) (by simp) (by omega)

theorem sprDeltaArr_first (L : ℕ) (f : Arr) : sprDeltaArr L f 0 = 0 := by
  unfold sprDeltaArr
  rw [if_neg]
  omega

theorem sprDeltaArr_last (L : ℕ) (f : Arr) : sprDeltaArr L f (L - 1) = 0 := by
  unfold sprDeltaArr
  rw [if_neg]
  omega

/-- The spring force of `_get_Fs` vanishes at both chain endpoints. -/
theorem getFsArr_ends_zero (L : ℕ) (ks : ℕ → ℚ) (chains : ℕ → Arr) (e : ℕ) :
    getFsArr L ks chains e 0 = 0 ∧ getFsArr L ks chains e (L - 1) = 0 := by
  constructor
  · simp [getFsArr, sprDeltaArr_first]
  · simp [getFsArr, sprDeltaArr_last]

/-- Force fields vanishing at both chain endpoints. -/
def zeroEndsF (L : ℕ) (out : ℕ → Arr) : Prop :=
  ∀ e, out e 0 = 0 ∧ out e (L - 1) = 0

theorem feDispArr_first (L : ℕ) (c : ℚ) (P Qr : Arr) :
    feDispArr L c P Qr 0 = 0 := by
  unfold feDispArr
  rw [if_pos (Or.inl rfl)]

theorem feDispArr_last (L : ℕ) (c : ℚ) (P Qr : Arr) :
    feDispArr L c P Qr (L - 1) = 0 := by
  unfold feDispArr
  rw [if_pos (Or.inr rfl)]

/-- One compatibility-pair update of `_get_Fe` keeps all force arrays
zero at both chain endpoints. -/
theorem feStepArr_zero_ends (L : ℕ) (chains out : ℕ → Arr)
    (entry : CompatEntry) (h : zeroEndsF L out) :
    zeroEndsF L (feStepArr L chains out entry) := by
  intro e
  unfold feStepArr
  simp only []
  have hd2_first :
      (if entry.reverse then
        reverseArr L (feDispArr L entry.compat (chains entry.e1)
          (if entry.reverse then reverseArr L (chains entry.e2) else chains entry.e2))
      else feDispArr L entry.compat (chains entry.e1)
          (if entry.reverse then reverseArr L (chains entry.e2) else chains entry.e2)) 0
      = 0 := by
    split_ifs
    · simp [reverseArr, feDispArr_last]
    · simp [feDispArr_first]
  have hd2_last :
      (if entry.reverse then
        reverseArr L (feDispArr L entry.compat (chains entry.e1)
          (if entry.reverse then reverseArr L (chains entry.e2) else chains entry.e2))
      else feDispArr L entry.compat (chains entry.e1)
          (if entry.reverse then reverseArr L (chains entry.e2) else chains entry.e2)) (L - 1)
      = 0 := by
    split_ifs
    · simp [reverseArr, Nat.sub_self, feDispArr_first]
    · simp [feDispArr_last]
  constructor
  · split_ifs <;> simp_all [feDispArr_first] <;> exact (h _).1
  · split_ifs <;> simp_all [feDispArr_last] <;> exact (h _).2

/-- `_get_Fe` keeps all force arrays zero at both chain endpoints. -/
theorem getFeArr_zero_ends (L : ℕ) (compat : List CompatEntry)
    (chains : ℕ → Arr) (out : ℕ → Arr) (h : zeroEndsF L out) :
    zeroEndsF L (getFeArr L compat chains out) := by
  unfold getFeArr
  induction compat generalizing out with
  | nil => exact h
  | cons entry rest ih =>
    simp only [List.foldl_cons]
    exact ih _ (feStepArr_zero_ends L chains out entry h)

/-- One FDEB sub-iteration preserves the chain-endpoint invariant. -/
theorem fdebIterationArr_preserves (L : ℕ) (ks : ℕ → ℚ)
    (compat : List CompatEntry) (chains : ℕ → Arr) (coeffs : ℕ → ℚ)
    (pos : ℕ → Vec) (edges : ℕ → ℕ × ℕ)
    (h : endsFixed (chains, L) pos edges) :
    endsFixed (fdebIterationArr L ks compat chains coeffs, L) pos edges := by
  intro e
  have hF : zeroEndsF L (getFeArr L compat chains (getFsArr L ks chains)) :=
    getFeArr_zero_ends L compat chains _ (getFsArr_ends_zero L ks chains)
  unfold fdebIterationArr updateArr
  constructor
  · simp only []
    rw [(hF e).1]
    simpa using (h e).1
  · simp only []
    rw [(hF e).2]
    simpa using (h e).2

/-- The control-point doubling preserves the chain-endpoint invariant
(the new first point is the old first, the new last is the old last). -/
theorem expandArr_preserves (chains : ℕ → Arr) (L : ℕ)
    (pos : ℕ → Vec) (edges : ℕ → ℕ × ℕ)
    (h : endsFixed (chains, L) pos edges) :
    endsFixed ((fun e => expandArr (chains e)), 2 * (L - 1) + 1) pos edges := by
  intro e
  constructor
  · simp only []
    unfold expandArr
    simpa using (h e).1
  · simp only []
    have hidx : (2 * (L - 1) + 1) - 1 = 2 * (L - 1) := by omega
    rw [hidx]
    unfold expandArr
    rw [if_pos (by omega : 2 * (L - 1) % 2 = 0),
      (by omega : 2 * (L - 1) / 2 = L - 1)]
    exact (h e).2

/-- One FDEB cycle (doubling followed by the sub-iterations) preserves
the chain-endpoint invariant. -/
theorem fdebCycleArr_preserves (ks : ℕ → ℚ) (compat : List CompatEntry)
    (state : (ℕ → Arr) × ℕ) (cycleCoeffs : List (ℕ → ℚ))
    (pos : ℕ → Vec) (edges : ℕ → ℕ × ℕ)
    (h : endsFixed state pos edges) :
    endsFixed (fdebCycleArr ks compat state cycleCoeffs) pos edges := by
  obtain ⟨chains, L⟩ := state
  unfold fdebCycleArr
  simp only []
  have hfold : ∀ (cs : List (ℕ → ℚ)) (ch : ℕ → Arr),
      endsFixed (ch, 2 * (L - 1) + 1) pos edges →
      endsFixed ((cs.foldl
        (fun ch co => fdebIterationArr (2 * (L - 1) + 1) ks compat ch co) ch),
        2 * (L - 1) + 1) pos edges := by
    intro cs
    induction cs with
    | nil => intro ch hch; exact hch
    | cons c0 cs ih =>
      intro ch hch
      simp only [List.foldl_cons]
      exact ih _ (fdebIterationArr_preserves _ ks compat ch c0 pos edges hch)
  exact hfold cycleCoeffs _ (expandArr_preserves chains L pos edges h)

/-- C6: throughout the FDEB simulation — after every sub-iteration of
every cycle and after every control-point-resolution doubling — the
first and last control point of every edge's chain equal the source and
target node positions of that edge. Quantifying over every `schedule`
covers the source's cycle/iteration structure and each of its prefixes,
i.e. every intermediate state; the clamping coefficients and the
compatibility entries are arbitrary (the spring force `_get_Fs` and the
bundling attraction `_get_Fe` are zero at chain endpoints, so no update
moves them). -/
theorem c6_fdeb_endpoints_fixed (pos : ℕ → Vec) (edges : ℕ → ℕ × ℕ)
    (ks : ℕ → ℚ) (compat : List CompatEntry)
    (schedule : List (List (ℕ → ℚ))) :
    endsFixed (fdebRunArr ks compat (initBundled pos edges) schedule)
      pos edges := by
  have hinit : endsFixed (initBundled pos edges) pos edges := by
    intro e
    exact ⟨by simp [initBundled], by simp [initBundled]⟩
  unfold fdebRunArr
  have hfold : ∀ (sch : List (List (ℕ → ℚ))) (st : (ℕ → Arr) × ℕ),
      endsFixed st pos edges →
      endsFixed (sch.foldl (fdebCycleArr ks compat) st) pos edges := by
    intro sch
    induction sch with
    | nil => intro st h; exact h
    | cons c cs ih =>
      intro st h
      simp only [List.foldl_cons]
      exact ih _ (fdebCycleArr_preserves ks compat st c pos edges h)
  exact hfold schedule _ hinit
